import Mathlib

/-!
Verification of the sample-naming core and small dictionary helpers of
`snakePipes/common_functions.py`.

The embedding works on `List Char` (the `data` of a `String`) so that every
definition is executable and provable by structural recursion.

Modelling assumptions, stated once here:
* `os.path.basename` is modelled for POSIX paths: the part of the string
  after the last `'/'`.
* Python `str.replace(old, "")` removes every non-overlapping occurrence of
  `old` in a single left-to-right scan; with `old = ""` it returns the string
  unchanged.  `removeAll` below implements exactly this scan.
* The regular expression `"^(.+)(" + reads[0] + "|" + reads[1] + ")$"` used by
  `is_paired` is modelled for read-suffix strings that contain no regex
  metacharacters and subject strings without newline characters (true of the
  intended inputs such as `"_R1"` / `"_R2"`): the match succeeds exactly when
  the name splits as a non-empty prefix followed by one of the two suffix
  strings, and the greedy `.+` picks the longest such prefix, i.e. the
  shortest matching suffix.
* Python dictionaries are modelled as association lists in insertion order
  with pairwise distinct keys.
-/

/-- One step of the Python `str.replace(pat, "")` scan, with explicit fuel so
that the recursion is structural (the fuel is always at least the length of
the list being scanned). -/
def removeAllFuel (pat : List Char) : Nat → List Char → List Char
  | _, [] => []
  | 0, l => l
  | fuel + 1, c :: rest =>
    if pat ≠ [] ∧ pat <+: (c :: rest) then
      removeAllFuel pat fuel (List.drop (pat.length - 1) rest)
    else
      c :: removeAllFuel pat fuel rest

/-- Python `s.replace(pat, "")` on character lists: remove every
non-overlapping occurrence of `pat` in one left-to-right scan.  For
`pat = []` this is the identity, matching Python. -/
def removeAll (pat l : List Char) : List Char :=
  removeAllFuel pat l.length l

/-- Python `s.replace(pat, "")` on strings. -/
def pyReplace (s pat : String) : String :=
  String.mk (removeAll pat.data s.data)

/-- `os.path.basename` on character lists (POSIX): the part after the last
slash. -/
def basenameChars : List Char → List Char
  | [] => []
  | c :: rest => if c = '/' ∨ '/' ∈ rest then basenameChars rest else c :: rest

/-- `os.path.basename` on strings. -/
def basename (s : String) : String :=
  String.mk (basenameChars s.data)

/-- The per-file transformation of `get_sample_names`:
`x = os.path.basename(x).replace(ext, "")` followed by
`x = x.replace(reads[0], "").replace(reads[1], "")` inside a
`try ... except IndexError: pass`.  When `reads` has fewer than two
elements the indexing raises `IndexError` before the assignment happens,
so the extension-stripped name is kept unchanged. -/
def stripName (ext : String) (reads : List String) (x : String) : String :=
  match reads.get? 0, reads.get? 1 with
  | some r0, some r1 => pyReplace (pyReplace (pyReplace (basename x) ext) r0) r1
  | _, _ => pyReplace (basename x) ext

/-- `get_sample_names(infiles, ext, reads)`: strip each input file name and
return the deduplicated names sorted ascending (`sorted(list(set(s)))`). -/
def get_sample_names (infiles : List String) (ext : String) (reads : List String) : List String :=
  List.insertionSort (fun a b => a ≤ b) ((infiles.map (stripName ext reads)).dedup)

/-- Backtracking loop of `re.match("^(.+)(r0|r1)$", fname)`: try the split
point `k` (length of the candidate prefix) from `fname.length` down to `1`;
at each split accept when the remaining suffix equals `r0` or `r1` and
return the prefix captured by `.+`. -/
def matchTailAux (r0 r1 fname : List Char) : Nat → Option (List Char)
  | 0 => none
  | k + 1 =>
    if fname.drop (k + 1) = r0 ∨ fname.drop (k + 1) = r1 then
      some (fname.take (k + 1))
    else
      matchTailAux r0 r1 fname k

/-- `re.match("^(.+)(r0|r1)$", fname)`: `some` of the captured base name on
success, `none` when the name does not split as a non-empty prefix followed
by one of the two suffixes. -/
def matchTail (r0 r1 fname : List Char) : Option (List Char) :=
  matchTailAux r0 r1 fname fname.length

/-- The base name `is_paired` derives from one input file: strip the
extension from the basename, then run the regex match. -/
def bnameOf (ext r0 r1 : String) (infile : String) : Option (List Char) :=
  matchTail r0.data r1.data (removeAll ext.data (basenameChars infile.data))

/-- Insert one file under its base name, mirroring
`infiles_dic[bname] = [infile]` / `infiles_dic[bname].append(infile)` on an
insertion-ordered dictionary. -/
def insertDic : List (List Char × List String) → List Char → String → List (List Char × List String)
  | [], b, f => [(b, [f])]
  | (k, v) :: rest, b, f =>
    if k = b then (k, v ++ [f]) :: rest else (k, v) :: insertDic rest b f

/-- The grouping loop of `is_paired` once `reads[0]` and `reads[1]` are in
hand. -/
def buildDic (ext r0 r1 : String) : List String → List (List Char × List String) → List (List Char × List String)
  | [], dic => dic
  | f :: rest, dic =>
    match bnameOf ext r0 r1 f with
    | none => buildDic ext r0 r1 rest dic
    | some b => buildDic ext r0 r1 rest (insertDic dic b f)

/-- The grouping loop of `is_paired` as written: each iteration evaluates
`reads[0]` and `reads[1]`, which raises `IndexError` (modelled as `none`)
when `reads` has fewer than two elements. -/
def buildDicE (ext : String) (reads : List String) : List String → List (List Char × List String) → Option (List (List Char × List String))
  | [], dic => some dic
  | f :: rest, dic =>
    match reads.get? 0, reads.get? 1 with
    | some r0, some r1 =>
      match bnameOf ext r0 r1 f with
      | none => buildDicE ext reads rest dic
      | some b => buildDicE ext reads rest (insertDic dic b f)
    | _, _ => none

/-- `max` over a list of naturals (Python `max` is only reached on non-empty
lists, where the `0` default is irrelevant). -/
def maxNat (l : List Nat) : Nat :=
  l.foldr Nat.max 0

/-- `is_paired(infiles, ext, reads)`: build the grouping, then return
`true` iff the dictionary is non-empty and the largest value-list length is
exactly `2`.  `none` models an uncaught `IndexError`. -/
def is_paired (infiles : List String) (ext : String) (reads : List String) : Option Bool :=
  match buildDicE ext reads infiles [] with
  | none => none
  | some [] => some false
  | some dic => some (decide (maxNat (dic.map (fun p => p.2.length)) = 2))

/-- Keys of the grouping dictionary, in insertion order. -/
def keysOf (dic : List (List Char × List String)) : List (List Char) :=
  dic.map Prod.fst

/-- Length of the value list stored under a key (`0` when the key is
absent). -/
def lenOf : List (List Char × List String) → List Char → Nat
  | [], _ => 0
  | (k, v) :: rest, b => if k = b then v.length else lenOf rest b

/-- Number of occurrences of a base name in a list of base names: the size
of the group that base name collects. -/
def cntKey (ks : List (List Char)) (b : List Char) : Nat :=
  ks.countP (fun x => decide (x = b))

/-- Invariant tying the grouping dictionary to the flat list of matched base
names: value-list lengths are occurrence counts, the key set is the set of
matched base names, and keys are pairwise distinct. -/
def DicInv (dic : List (List Char × List String)) (ks : List (List Char)) : Prop :=
  (∀ b, lenOf dic b = cntKey ks b) ∧ (∀ b, b ∈ keysOf dic ↔ b ∈ ks) ∧ (keysOf dic).Nodup

/-- Remove every entry with the given key, modelling
`if k in myDict: del myDict[k]` on a dictionary whose keys are distinct. -/
def delKey {β : Type} (d : List (String × β)) (k : String) : List (String × β) :=
  d.filter (fun kv => decide (kv.1 ≠ k))

/-- `sanity_dict_clean`: drop the reserved keys `maindir` and `workflow`. -/
def sanity_dict_clean {β : Type} (d : List (String × β)) : List (String × β) :=
  delKey (delKey d "maindir") "workflow"

/-- `load_configfile`, modelled from the parsed YAML mapping onward (file
access and YAML parsing are outside the embedding; the verbose branch only
prints): sanitize the parsed mapping and return it. -/
def load_configfile {β : Type} (config : List (String × β)) : List (String × β) :=
  sanity_dict_clean config

/-- Dictionary lookup on an association list, mirroring `k in d` / `d[k]`. -/
def lookupV {α β : Type} [DecidableEq α] (d : List (α × β)) (k : α) : Option β :=
  match d with
  | [] => none
  | (k2, v) :: rest => if k2 = k then some v else lookupV rest k

/-- `config_diff(dict1, dict2)`: every key of `dict1` whose value differs
from, or is absent in, `dict2`, keyed by `dict1`'s value. -/
def config_diff {α β : Type} [DecidableEq α] [DecidableEq β] (d1 d2 : List (α × β)) : List (α × β) :=
  d1.filter (fun kv =>
    match lookupV d2 kv.1 with
    | none => true
    | some v2 => decide (kv.2 ≠ v2))

/-- `n` concatenated copies of a character list. -/
def repChars : Nat → List Char → List Char
  | 0, _ => []
  | n + 1, e => e ++ repChars n e

theorem removeAllFuel_nil (pat : List Char) (f : Nat) : removeAllFuel pat f [] = [] := by
  cases f <;> rfl

theorem removeAllFuel_cons (pat : List Char) (f : Nat) (c : Char) (rest : List Char) :
    removeAllFuel pat (f + 1) (c :: rest) =
      if pat ≠ [] ∧ pat <+: (c :: rest) then
        removeAllFuel pat f (List.drop (pat.length - 1) rest)
      else
        c :: removeAllFuel pat f rest := rfl

theorem removeAllFuel_congr (pat : List Char) :
    ∀ (f1 : Nat) (l : List Char) (f2 : Nat), l.length ≤ f1 → l.length ≤ f2 →
      removeAllFuel pat f1 l = removeAllFuel pat f2 l := by
  intro f1
  induction f1 with
  | zero =>
    intro l f2 h1 h2
    have hl : l = [] := List.eq_nil_of_length_eq_zero (Nat.le_zero.mp h1)
    subst hl
    rw [removeAllFuel_nil, removeAllFuel_nil]
  | succ f ih =>
    intro l f2 h1 h2
    cases l with
    | nil => rw [removeAllFuel_nil, removeAllFuel_nil]
    | cons c rest =>
      cases f2 with
      | zero => simp at h2
      | succ g =>
        rw [removeAllFuel_cons, removeAllFuel_cons]
        have hr1 : rest.length ≤ f := by simpa using h1
        have hr2 : rest.length ≤ g := by simpa using h2
        by_cases hcond : pat ≠ [] ∧ pat <+: (c :: rest)
        · rw [if_pos hcond, if_pos hcond]
          have hd : (List.drop (pat.length - 1) rest).length ≤ rest.length := by
            rw [List.length_drop]; omega
          exact ih _ g (le_trans hd hr1) (le_trans hd hr2)
        · rw [if_neg hcond, if_neg hcond]
          exact congrArg (List.cons c) (ih rest g hr1 hr2)

theorem removeAll_nil (pat : List Char) : removeAll pat [] = [] := rfl

theorem removeAll_cons_pos {pat : List Char} {c : Char} {rest : List Char}
    (h1 : pat ≠ []) (h2 : pat <+: (c :: rest)) :
    removeAll pat (c :: rest) = removeAll pat (List.drop (pat.length - 1) rest) := by
  show removeAllFuel pat (rest.length + 1) (c :: rest) = _
  rw [removeAllFuel_cons, if_pos ⟨h1, h2⟩]
  exact removeAllFuel_congr pat rest.length _ _ (by rw [List.length_drop]; omega) le_rfl

theorem removeAll_cons_neg {pat : List Char} {c : Char} {rest : List Char}
    (h : ¬(pat ≠ [] ∧ pat <+: (c :: rest))) :
    removeAll pat (c :: rest) = c :: removeAll pat rest := by
  show removeAllFuel pat (rest.length + 1) (c :: rest) = _
  rw [removeAllFuel_cons, if_neg h]
  rfl

theorem removeAll_append_self {pat : List Char} (h : pat ≠ []) (t : List Char) :
    removeAll pat (pat ++ t) = removeAll pat t := by
  obtain ⟨c, p2, rfl⟩ : ∃ c p2, pat = c :: p2 := by
    cases pat with
    | nil => exact absurd rfl h
    | cons c p2 => exact ⟨c, p2, rfl⟩
  rw [List.cons_append, removeAll_cons_pos h ⟨t, by simp⟩]
  have hd : List.drop ((c :: p2).length - 1) (p2 ++ t) = t := by
    have hlen : (c :: p2).length - 1 = p2.length := by simp
    rw [hlen, List.drop_left]
  rw [hd]

theorem basenameChars_eq_self {l : List Char} (h : '/' ∉ l) : basenameChars l = l := by
  cases l with
  | nil => rfl
  | cons c rest =>
    rw [basenameChars, if_neg]
    intro hor
    rcases hor with hc | hr
    · exact h (by rw [hc]; exact List.mem_cons_self _ _)
    · exact h (List.mem_cons_of_mem _ hr)

theorem matchTailAux_eq_none {r0 r1 s : List Char} :
    ∀ k, (∀ j, 1 ≤ j → j ≤ k → s.drop j ≠ r0 ∧ s.drop j ≠ r1) →
      matchTailAux r0 r1 s k = none := by
  intro k
  induction k with
  | zero => intro _; rfl
  | succ k ih =>
    intro h
    rw [matchTailAux, if_neg]
    · exact ih (fun j hj1 hjk => h j hj1 (Nat.le_succ_of_le hjk))
    · intro hor
      rcases hor with h0 | h1
      · exact (h (k + 1) (Nat.succ_le_succ (Nat.zero_le _)) le_rfl).1 h0
      · exact (h (k + 1) (Nat.succ_le_succ (Nat.zero_le _)) le_rfl).2 h1

theorem lenOf_insertDic :
    ∀ (dic : List (List Char × List String)) (b : List Char) (f : String) (b2 : List Char),
      lenOf (insertDic dic b f) b2 = lenOf dic b2 + (if b = b2 then 1 else 0) := by
  intro dic b f
  induction dic with
  | nil =>
    intro b2
    show lenOf [(b, [f])] b2 = lenOf [] b2 + _
    rw [lenOf, lenOf]
    by_cases h : b = b2
    · rw [if_pos h, if_pos h]; rfl
    · rw [if_neg h, if_neg h]; rfl
  | cons kv rest ih =>
    obtain ⟨k, v⟩ := kv
    intro b2
    rw [insertDic]
    by_cases hkb : k = b
    · rw [if_pos hkb, lenOf, lenOf]
      by_cases hk2 : k = b2
      · have hb2 : b = b2 := hkb ▸ hk2
        rw [if_pos hk2, if_pos hk2, if_pos hb2, List.length_append, List.length_singleton]
      · have hb2 : ¬b = b2 := fun hb => hk2 (hkb.trans hb)
        rw [if_neg hk2, if_neg hk2, if_neg hb2]
        rfl
    · rw [if_neg hkb, lenOf, lenOf]
      by_cases hk2 : k = b2
      · have hb2 : ¬b = b2 := fun hb => hkb (hk2.trans hb.symm)
        rw [if_pos hk2, if_pos hk2, if_neg hb2]
        rfl
      · rw [if_neg hk2, if_neg hk2, ih b2]

theorem keysOf_insertDic_mem :
    ∀ (dic : List (List Char × List String)) (b : List Char) (f : String),
      b ∈ keysOf dic → keysOf (insertDic dic b f) = keysOf dic := by
  intro dic
  induction dic with
  | nil => intro b f h; simp [keysOf] at h
  | cons kv rest ih =>
    obtain ⟨k, v⟩ := kv
    intro b f h
    rw [insertDic]
    by_cases hkb : k = b
    · rw [if_pos hkb]; rfl
    · rw [if_neg hkb]
      have hck : b ∈ k :: keysOf rest := h
      have hb : b ∈ keysOf rest := by
        rcases List.mem_cons.mp hck with h1 | h1
        · exact absurd h1.symm hkb
        · exact h1
      show k :: keysOf (insertDic rest b f) = k :: keysOf rest
      rw [ih b f hb]

theorem keysOf_insertDic_notMem :
    ∀ (dic : List (List Char × List String)) (b : List Char) (f : String),
      b ∉ keysOf dic → keysOf (insertDic dic b f) = keysOf dic ++ [b] := by
  intro dic
  induction dic with
  | nil => intro b f _; rfl
  | cons kv rest ih =>
    obtain ⟨k, v⟩ := kv
    intro b f h
    have hkb : ¬k = b := by
      intro he
      refine h ?_
      show b ∈ k :: keysOf rest
      rw [he]
      exact List.mem_cons_self _ _
    rw [insertDic, if_neg hkb]
    have hb : b ∉ keysOf rest := by
      intro h1
      refine h ?_
      show b ∈ k :: keysOf rest
      exact List.mem_cons_of_mem _ h1
    show k :: keysOf (insertDic rest b f) = (k :: keysOf rest) ++ [b]
    rw [ih b f hb]
    rfl

theorem lenOf_eq_of_mem :
    ∀ (dic : List (List Char × List String)), (keysOf dic).Nodup →
      ∀ (k : List Char) (v : List String), (k, v) ∈ dic → lenOf dic k = v.length := by
  intro dic
  induction dic with
  | nil => intro _ k v h; simp at h
  | cons kv rest ih =>
    obtain ⟨k2, v2⟩ := kv
    intro hnd k v hm
    have hnd1 : k2 ∉ keysOf rest ∧ (keysOf rest).Nodup := by
      rw [show keysOf ((k2, v2) :: rest) = k2 :: keysOf rest from rfl] at hnd
      exact List.nodup_cons.mp hnd
    rcases List.mem_cons.mp hm with h1 | h1
    · have hk : k = k2 := congrArg Prod.fst h1
      have hv : v = v2 := congrArg Prod.snd h1
      rw [lenOf, if_pos hk.symm, hv]
    · have hk2 : ¬k2 = k := by
        intro he
        exact hnd1.1 (he ▸ (List.mem_map_of_mem Prod.fst h1))
      rw [lenOf, if_neg hk2]
      exact ih hnd1.2 k v h1

theorem cntKey_append (ks : List (List Char)) (b b2 : List Char) :
    cntKey (ks ++ [b]) b2 = cntKey ks b2 + (if b = b2 then 1 else 0) := by
  rw [cntKey, cntKey, List.countP_append]
  by_cases h : b = b2 <;> simp [List.countP_cons, h]

theorem dicInv_nil : DicInv [] [] := by
  refine ⟨fun b => rfl, fun b => ?_, ?_⟩
  · simp [keysOf]
  · simp [keysOf]

theorem dicInv_insert {dic : List (List Char × List String)} {ks : List (List Char)}
    (h : DicInv dic ks) (b : List Char) (f : String) :
    DicInv (insertDic dic b f) (ks ++ [b]) := by
  obtain ⟨hlen, hmem, hnodup⟩ := h
  refine ⟨fun b2 => ?_, fun b2 => ?_, ?_⟩
  · rw [lenOf_insertDic, cntKey_append, hlen b2]
  · by_cases hb : b ∈ keysOf dic
    · rw [keysOf_insertDic_mem dic b f hb]
      constructor
      · intro h2
        exact List.mem_append_left _ ((hmem b2).mp h2)
      · intro h2
        rcases List.mem_append.mp h2 with h3 | h3
        · exact (hmem b2).mpr h3
        · have hb2 : b2 = b := by simpa using h3
          rw [hb2]; exact hb
    · rw [keysOf_insertDic_notMem dic b f hb]
      simp only [List.mem_append, List.mem_singleton]
      constructor
      · intro h2
        rcases h2 with h3 | h3
        · exact Or.inl ((hmem b2).mp h3)
        · exact Or.inr h3
      · intro h2
        rcases h2 with h3 | h3
        · exact Or.inl ((hmem b2).mpr h3)
        · exact Or.inr h3
  · by_cases hb : b ∈ keysOf dic
    · rw [keysOf_insertDic_mem dic b f hb]; exact hnodup
    · rw [keysOf_insertDic_notMem dic b f hb, List.nodup_append]
      refine ⟨hnodup, List.nodup_singleton b, ?_⟩
      intro x hx hx2
      have hxb : x = b := by simpa using hx2
      exact hb (hxb ▸ hx)

theorem buildDic_inv (ext r0 r1 : String) :
    ∀ (fs : List String) (dic : List (List Char × List String)) (ks : List (List Char)),
      DicInv dic ks →
      DicInv (buildDic ext r0 r1 fs dic) (ks ++ fs.filterMap (bnameOf ext r0 r1)) := by
  intro fs
  induction fs with
  | nil => intro dic ks h; simpa using h
  | cons f rest ih =>
    intro dic ks h
    cases hb : bnameOf ext r0 r1 f with
    | none =>
      simp only [buildDic, hb, List.filterMap_cons_none hb]
      exact ih dic ks h
    | some b =>
      simp only [buildDic, hb, List.filterMap_cons_some hb]
      have h2 := ih (insertDic dic b f) (ks ++ [b]) (dicInv_insert h b f)
      simpa [List.append_assoc] using h2

theorem buildDicE_eq (ext r0 r1 : String) (rs : List String) :
    ∀ (fs : List String) (dic : List (List Char × List String)),
      buildDicE ext (r0 :: r1 :: rs) fs dic = some (buildDic ext r0 r1 fs dic) := by
  intro fs
  induction fs with
  | nil => intro dic; rfl
  | cons f rest ih =>
    intro dic
    cases hb : bnameOf ext r0 r1 f with
    | none =>
      simp only [buildDicE, buildDic, List.get?, hb]
      exact ih dic
    | some b =>
      simp only [buildDicE, buildDic, List.get?, hb]
      exact ih (insertDic dic b f)

theorem maxNat_cons (y : Nat) (l : List Nat) : maxNat (y :: l) = Nat.max y (maxNat l) := rfl

theorem le_maxNat {l : List Nat} {x : Nat} (h : x ∈ l) : x ≤ maxNat l := by
  induction l with
  | nil => simp at h
  | cons y rest ih =>
    rw [maxNat_cons]
    rcases List.mem_cons.mp h with h1 | h1
    · rw [h1]; exact Nat.le_max_left _ _
    · exact le_trans (ih h1) (Nat.le_max_right _ _)

theorem maxNat_mem : ∀ {l : List Nat}, l ≠ [] → maxNat l ∈ l := by
  intro l
  induction l with
  | nil => intro h; exact absurd rfl h
  | cons y rest ih =>
    intro _
    cases rest with
    | nil => simp [maxNat]
    | cons z rest2 =>
      have hm := ih (by simp)
      rw [maxNat_cons]
      rcases Nat.le_total y (maxNat (z :: rest2)) with h | h
      · have he : Nat.max y (maxNat (z :: rest2)) = maxNat (z :: rest2) := Nat.max_eq_right h
        rw [he]
        exact List.mem_cons_of_mem _ hm
      · have he : Nat.max y (maxNat (z :: rest2)) = y := Nat.max_eq_left h
        rw [he]
        exact List.mem_cons_self _ _

theorem maxNat_congr {l1 l2 : List Nat} (h : ∀ x, x ∈ l1 ↔ x ∈ l2) :
    maxNat l1 = maxNat l2 := by
  cases l1 with
  | nil =>
    cases l2 with
    | nil => rfl
    | cons y rest => exact absurd ((h y).mpr (List.mem_cons_self y rest)) (by simp)
  | cons y rest =>
    cases l2 with
    | nil => exact absurd ((h y).mp (List.mem_cons_self y rest)) (by simp)
    | cons z rest2 =>
      apply Nat.le_antisymm
      · exact le_maxNat ((h _).mp (maxNat_mem (by simp)))
      · exact le_maxNat ((h _).mpr (maxNat_mem (by simp)))

theorem sizes_mem_iff {dic : List (List Char × List String)} {ks : List (List Char)}
    (h : DicInv dic ks) :
    ∀ x, x ∈ dic.map (fun p => p.2.length) ↔ x ∈ ks.map (cntKey ks) := by
  obtain ⟨hlen, hmem, hnodup⟩ := h
  intro x
  constructor
  · intro hx
    obtain ⟨p, hp, hpx⟩ := List.mem_map.mp hx
    obtain ⟨k, v⟩ := p
    have hk : k ∈ ks := (hmem k).mp (List.mem_map_of_mem Prod.fst hp)
    have hv : lenOf dic k = v.length := lenOf_eq_of_mem dic hnodup k v hp
    refine List.mem_map.mpr ⟨k, hk, ?_⟩
    rw [← hlen k, hv, hpx]
  · intro hx
    obtain ⟨k, hk, hkx⟩ := List.mem_map.mp hx
    have hk2 : k ∈ keysOf dic := (hmem k).mpr hk
    obtain ⟨p, hp, hpk⟩ := List.mem_map.mp hk2
    obtain ⟨k2, v⟩ := p
    have hk3 : k2 = k := hpk
    subst hk3
    refine List.mem_map.mpr ⟨(k2, v), hp, ?_⟩
    rw [show ((k2, v).2.length) = v.length from rfl, ← lenOf_eq_of_mem dic hnodup k2 v hp,
      hlen k2, hkx]

/-- C1: for every list of input paths, extension string, and read-suffix
list with at least two elements, `is_paired` returns `true` exactly when the
pairing grouping — paths whose extension-stripped basename splits as a
non-empty prefix followed by the first or second read suffix, grouped by
that prefix — is non-empty and the maximum group size over all groups is
exactly `2`.  Paths matching neither suffix pattern are dropped by
`bnameOf` and are counted in no group. -/
theorem is_paired_iff_grouping (infiles : List String) (ext r0 r1 : String) (rs : List String) :
    is_paired infiles ext (r0 :: r1 :: rs) = some true ↔
      (infiles.filterMap (bnameOf ext r0 r1) ≠ [] ∧
        maxNat ((infiles.filterMap (bnameOf ext r0 r1)).map
          (cntKey (infiles.filterMap (bnameOf ext r0 r1)))) = 2) := by
  have hInv : DicInv (buildDic ext r0 r1 infiles []) (infiles.filterMap (bnameOf ext r0 r1)) := by
    have h := buildDic_inv ext r0 r1 infiles [] [] dicInv_nil
    simpa using h
  unfold is_paired
  rw [buildDicE_eq ext r0 r1 rs infiles []]
  cases hD : buildDic ext r0 r1 infiles [] with
  | nil =>
    rw [hD] at hInv
    have hks : infiles.filterMap (bnameOf ext r0 r1) = [] := by
      refine List.eq_nil_iff_forall_not_mem.mpr (fun b hb => ?_)
      have hb2 := (hInv.2.1 b).mpr hb
      simp [keysOf] at hb2
    constructor
    · intro hfalse
      exact absurd hfalse (by simp)
    · rintro ⟨hne, _⟩
      exact absurd hks hne
  | cons d D2 =>
    rw [hD] at hInv
    have hne : infiles.filterMap (bnameOf ext r0 r1) ≠ [] := by
      have hd : d.1 ∈ keysOf (d :: D2) := List.mem_map_of_mem Prod.fst (List.mem_cons_self d D2)
      exact List.ne_nil_of_mem ((hInv.2.1 d.1).mp hd)
    have hmax : maxNat ((d :: D2).map (fun p => p.2.length)) =
        maxNat ((infiles.filterMap (bnameOf ext r0 r1)).map
          (cntKey (infiles.filterMap (bnameOf ext r0 r1)))) :=
      maxNat_congr (sizes_mem_iff hInv)
    show some (decide (maxNat ((d :: D2).map (fun p => p.2.length)) = 2)) = some true ↔ _
    constructor
    · intro heq
      have hP : maxNat ((d :: D2).map (fun p => p.2.length)) = 2 := by simpa using heq
      exact ⟨hne, by rw [← hmax]; exact hP⟩
    · rintro ⟨_, h2⟩
      have hP : maxNat ((d :: D2).map (fun p => p.2.length)) = 2 := by rw [hmax]; exact h2
      rw [hP]
      rfl

/-- C2 counterexample: with a non-empty input list and a read-suffix list
with fewer than two elements, `is_paired` evaluates `reads[0]` and raises
an uncaught `IndexError` (modelled as `none`), so it does not complete
normally as the claim states. -/
theorem is_paired_short_reads_raises : is_paired ["a_R1.fastq"] ".fastq" [] = none := rfl

/-- C2 (amended): `get_sample_names` completes normally on every input — in
particular, on every input list (empty or not), with fewer than two read
suffixes its suffix removal is silently skipped and it behaves exactly as
with an empty read-suffix list; `is_paired` completes normally whenever the
read-suffix list has at least two elements or the input list is empty, but
with fewer than two read suffixes and a non-empty input list it raises an
uncaught `IndexError` (modelled as `none`). -/
theorem sample_namer_completion (infiles : List String) (ext : String) (reads : List String) :
    (reads.length < 2 → get_sample_names infiles ext reads = get_sample_names infiles ext []) ∧
      (2 ≤ reads.length → ∃ b, is_paired infiles ext reads = some b) ∧
      (is_paired [] ext reads = some false) ∧
      (reads.length < 2 → infiles ≠ [] → is_paired infiles ext reads = none) := by
  refine ⟨?_, ?_, rfl, ?_⟩
  · intro hlt
    have hstrip : stripName ext reads = stripName ext [] := by
      funext x
      cases reads with
      | nil => rfl
      | cons r0 t =>
        cases t with
        | nil => rfl
        | cons r1 rs =>
          exfalso
          have hl : (r0 :: r1 :: rs : List String).length = rs.length + 2 := by simp
          omega
    unfold get_sample_names
    rw [hstrip]
  · intro h2
    obtain ⟨r0, r1, rs, hr⟩ : ∃ r0 r1 rs, reads = r0 :: r1 :: rs := by
      cases reads with
      | nil => simp at h2
      | cons r0 t =>
        cases t with
        | nil => simp at h2
        | cons r1 rs => exact ⟨r0, r1, rs, rfl⟩
    subst hr
    unfold is_paired
    rw [buildDicE_eq ext r0 r1 rs infiles []]
    cases buildDic ext r0 r1 infiles [] with
    | nil => exact ⟨false, rfl⟩
    | cons d D2 => exact ⟨_, rfl⟩
  · intro hlt hne
    cases infiles with
    | nil => exact absurd rfl hne
    | cons f rest =>
      cases reads with
      | nil => rfl
      | cons r0 t =>
        cases t with
        | nil => rfl
        | cons r1 rs =>
          exfalso
          have hl : (r0 :: r1 :: rs : List String).length = rs.length + 2 := by simp
          omega

theorem sample_namer_completion_witness :
    get_sample_names ["a_R1.fq"] ".fq" ["_R1"] = get_sample_names ["a_R1.fq"] ".fq" [] ∧
      (∃ b, is_paired ["a_R1.fq", "a_R2.fq"] ".fq" ["_R1", "_R2"] = some b) ∧
      is_paired [] ".fq" ["_R1"] = some false ∧
      is_paired ["a_R1.fq"] ".fq" ["_R1"] = none :=
  ⟨(sample_namer_completion ["a_R1.fq"] ".fq" ["_R1"]).1 (by decide),
    (sample_namer_completion ["a_R1.fq", "a_R2.fq"] ".fq" ["_R1", "_R2"]).2.1 (by decide),
    (sample_namer_completion [] ".fq" ["_R1"]).2.2.1,
    (sample_namer_completion ["a_R1.fq"] ".fq" ["_R1"]).2.2.2 (by decide) (by decide)⟩

/-- C4: the output of `get_sample_names` is sorted ascending and contains
no duplicate entries, for every input list, extension, and read-suffix
list. -/
theorem get_sample_names_sorted_nodup (infiles : List String) (ext : String) (reads : List String) :
    (get_sample_names infiles ext reads).Sorted (fun a b => a ≤ b) ∧
      (get_sample_names infiles ext reads).Nodup := by
  constructor
  · exact List.sorted_insertionSort _ _
  · have hperm := List.perm_insertionSort (fun a b : String => a ≤ b)
      ((infiles.map (stripName ext reads)).dedup)
    exact (List.Perm.nodup_iff hperm).mpr (List.nodup_dedup _)

/-- C5: on the empty input list, `get_sample_names` returns the empty
sequence and `is_paired` returns `false`, for every extension string and
every read-suffix list (including the empty one). -/
theorem empty_input_results (ext : String) (reads : List String) :
    get_sample_names [] ext reads = [] ∧ is_paired [] ext reads = some false :=
  ⟨rfl, rfl⟩

/-- C6: `get_sample_names` is deterministic — two invocations on equal
inputs yield the same sorted output sequence. -/
theorem get_sample_names_deterministic (infiles1 : List String) (ext1 : String)
    (reads1 : List String) (infiles2 : List String) (ext2 : String) (reads2 : List String)
    (h1 : infiles1 = infiles2) (h2 : ext1 = ext2) (h3 : reads1 = reads2) :
    get_sample_names infiles1 ext1 reads1 = get_sample_names infiles2 ext2 reads2 := by
  rw [h1, h2, h3]

theorem get_sample_names_deterministic_witness :
    get_sample_names ["d/a_R1.fq"] ".fq" ["_R1", "_R2"] =
      get_sample_names ["d/a_R1.fq"] ".fq" ["_R1", "_R2"] :=
  get_sample_names_deterministic ["d/a_R1.fq"] ".fq" ["_R1", "_R2"]
    ["d/a_R1.fq"] ".fq" ["_R1", "_R2"] rfl rfl rfl

/-- C3 counterexample: on the basename `a.gz.gz` with extension `.gz`,
`get_sample_names` removes both occurrences of the extension and yields
`a`, not the `a.gz` that first-occurrence-only removal would produce. -/
theorem extension_both_occurrences_removed :
    get_sample_names ["a.gz.gz"] ".gz" [] = ["a"] ∧ ("a" : String) ≠ "a.gz" := by
  constructor
  · decide
  · decide

/-- C3 (amended): the extension is removed at every left-to-right
non-overlapping occurrence, not only at the first one; in particular a
basename made of `n` concatenated copies of a non-empty, slash-free
extension strips down to the empty sample name. -/
theorem replace_removes_every_occurrence (n : Nat) (e : String)
    (h1 : e.data ≠ []) (h2 : '/' ∉ e.data) :
    get_sample_names [String.mk (repChars n e.data)] e [] = [""] := by
  have hmem : '/' ∉ repChars n e.data := by
    induction n with
    | zero => simp [repChars]
    | succ m ih =>
      rw [repChars]
      intro hm
      rcases List.mem_append.mp hm with hm1 | hm1
      · exact h2 hm1
      · exact ih hm1
  have hbase : basenameChars (repChars n e.data) = repChars n e.data :=
    basenameChars_eq_self hmem
  have hrm : removeAll e.data (repChars n e.data) = [] := by
    clear hmem hbase
    induction n with
    | zero => rfl
    | succ m ih => rw [repChars, removeAll_append_self h1, ih]
  have hstrip : stripName e [] (String.mk (repChars n e.data)) = String.mk [] := by
    show String.mk (removeAll e.data (basenameChars (repChars n e.data))) = String.mk []
    rw [hbase, hrm]
  unfold get_sample_names
  rw [List.map_cons, List.map_nil, hstrip]
  decide

theorem replace_removes_every_occurrence_witness :
    get_sample_names [".gz.gz"] ".gz" [] = [""] := by
  have h := replace_removes_every_occurrence 2 ".gz" (by decide) (by decide)
  have he : String.mk (repChars 2 ".gz".data) = ".gz.gz" := by decide
  rw [he] at h
  exact h

theorem lookupV_eq_of_mem {α β : Type} [DecidableEq α] :
    ∀ (d : List (α × β)), (d.map Prod.fst).Nodup →
      ∀ (k : α) (v : β), (k, v) ∈ d → lookupV d k = some v := by
  intro d
  induction d with
  | nil => intro _ k v h; simp at h
  | cons kv rest ih =>
    obtain ⟨k2, v2⟩ := kv
    intro hnd k v hm
    have hnd1 : k2 ∉ rest.map Prod.fst ∧ (rest.map Prod.fst).Nodup := by
      rw [show ((k2, v2) :: rest).map Prod.fst = k2 :: rest.map Prod.fst from rfl] at hnd
      exact List.nodup_cons.mp hnd
    rcases List.mem_cons.mp hm with h1 | h1
    · have hk : k = k2 := congrArg Prod.fst h1
      have hv : v = v2 := congrArg Prod.snd h1
      rw [lookupV, if_pos hk.symm, hv]
    · have hk2 : ¬k2 = k := by
        intro he
        exact hnd1.1 (he ▸ (List.mem_map_of_mem Prod.fst h1))
      rw [lookupV, if_neg hk2]
      exact ih hnd1.2 k v h1

/-- C7: `config_diff(a, b)` contains exactly the pairs `(k, v)` of `a` such
that `b` does not map `k` to that same value `v` (`k` absent from `b`, or
mapped to a different value); each retained key keeps `a`'s value, so keys
present only in `b` never appear. -/
theorem config_diff_spec {α β : Type} [DecidableEq α] [DecidableEq β]
    (d1 d2 : List (α × β)) (k : α) (v : β) (h1 : (d1.map Prod.fst).Nodup) :
    ((k, v) ∈ config_diff d1 d2 ↔ ((k, v) ∈ d1 ∧ lookupV d2 k ≠ some v)) ∧
      ((k, v) ∈ config_diff d1 d2 → lookupV d1 k = some v) := by
  have hmemiff : (k, v) ∈ config_diff d1 d2 ↔ ((k, v) ∈ d1 ∧ lookupV d2 k ≠ some v) := by
    rw [config_diff, List.mem_filter]
    cases hl : lookupV d2 k with
    | none => simp [hl]
    | some v2 =>
      simp only [hl]
      constructor
      · rintro ⟨hmem, hpred⟩
        refine ⟨hmem, ?_⟩
        intro heq
        have hv : v2 = v := by simpa using heq
        have hne : v ≠ v2 := by simpa using hpred
        exact hne hv.symm
      · rintro ⟨hmem, hne⟩
        refine ⟨hmem, ?_⟩
        simp only [decide_eq_true_eq]
        intro hv
        exact hne (by rw [hv])
  refine ⟨hmemiff, fun hm => ?_⟩
  exact lookupV_eq_of_mem d1 h1 k v (hmemiff.mp hm).1

theorem config_diff_spec_witness :
    ((("a", 1) ∈ config_diff [("a", 1), ("b", 2)] [("b", 3)] ↔
        (("a", 1) ∈ [("a", 1), ("b", 2)] ∧ lookupV [("b", 3)] "a" ≠ some 1)) ∧
      (("a", 1) ∈ config_diff [("a", 1), ("b", 2)] [("b", 3)] →
        lookupV [("a", 1), ("b", 2)] "a" = some 1)) :=
  config_diff_spec [("a", 1), ("b", 2)] [("b", 3)] "a" 1 (by decide)

/-- C8: the mapping returned by `load_configfile` (which applies
`sanity_dict_clean` to the parsed mapping) contains neither the key
`maindir` nor the key `workflow`, and every other key-value pair of the
parsed mapping is preserved. -/
theorem load_configfile_clean {β : Type} (d : List (String × β)) (k : String) (v : β)
    (h1 : k ≠ "maindir") (h2 : k ≠ "workflow") :
    ("maindir" ∉ (load_configfile d).map Prod.fst ∧
        "workflow" ∉ (load_configfile d).map Prod.fst) ∧
      ((k, v) ∈ load_configfile d ↔ (k, v) ∈ d) := by
  refine ⟨⟨?_, ?_⟩, ?_⟩
  · intro hm
    simp only [load_configfile, sanity_dict_clean, delKey, List.mem_map, List.mem_filter,
      decide_eq_true_eq] at hm
    obtain ⟨p, ⟨⟨_, hne1⟩, _⟩, hpk⟩ := hm
    exact hne1 hpk
  · intro hm
    simp only [load_configfile, sanity_dict_clean, delKey, List.mem_map, List.mem_filter,
      decide_eq_true_eq] at hm
    obtain ⟨p, ⟨⟨_, _⟩, hne2⟩, hpk⟩ := hm
    exact hne2 hpk
  · simp only [load_configfile, sanity_dict_clean, delKey, List.mem_filter, decide_eq_true_eq]
    constructor
    · rintro ⟨⟨hd, _⟩, _⟩
      exact hd
    · intro hd
      exact ⟨⟨hd, h1⟩, h2⟩

theorem load_configfile_clean_witness :
    (("maindir" ∉ (load_configfile [("maindir", 1), ("x", 5)]).map Prod.fst ∧
        "workflow" ∉ (load_configfile [("maindir", 1), ("x", 5)]).map Prod.fst) ∧
      (("x", 5) ∈ load_configfile [("maindir", 1), ("x", 5)] ↔
        ("x", 5) ∈ [("maindir", 1), ("x", 5)])) :=
  load_configfile_clean [("maindir", 1), ("x", 5)] "x" 5 (by decide) (by decide)

/-- C9 counterexample: with read suffixes `_R1` and `1`, the file `_R1`
strips (under the empty extension) to exactly the first read-suffix string,
yet the regex matches it — the greedy `.+` captures `_R` and the
alternative `1` matches — so the file is placed in a group, contradicting
the claim that such a file matches neither pattern and enters no group. -/
theorem exact_suffix_name_grouped :
    removeAll "".data (basenameChars "_R1".data) = "_R1".data ∧
      bnameOf "" "_R1" "1" "_R1" = some "_R".data ∧
      buildDicE "" ["_R1", "1"] ["_R1"] [] = some [("_R".data, ["_R1"])] :=
  ⟨by decide, by decide, by decide⟩

/-- C9 (amended): a file whose extension-stripped basename is exactly equal
to one of the two read-suffix strings is matched by neither pattern and is
excluded from every group, provided neither read-suffix string is a proper
suffix of that stripped name (as with the intended suffixes `_R1`/`_R2`;
otherwise the shorter suffix can still match with a non-empty prefix). -/
theorem exact_suffix_name_excluded (ext r0 r1 f : String)
    (h : removeAll ext.data (basenameChars f.data) = r0.data ∨
        removeAll ext.data (basenameChars f.data) = r1.data)
    (h0 : ¬(r0.data <:+ removeAll ext.data (basenameChars f.data) ∧
        r0.data ≠ removeAll ext.data (basenameChars f.data)))
    (h1 : ¬(r1.data <:+ removeAll ext.data (basenameChars f.data) ∧
        r1.data ≠ removeAll ext.data (basenameChars f.data))) :
    bnameOf ext r0 r1 f = none := by
  unfold bnameOf matchTail
  apply matchTailAux_eq_none
  intro j hj1 hjk
  constructor
  · intro he
    refine h0 ⟨?_, ?_⟩
    · rw [← he]
      exact List.drop_suffix j _
    · intro heq
      have hlen : ((removeAll ext.data (basenameChars f.data)).drop j).length =
          (removeAll ext.data (basenameChars f.data)).length - j := List.length_drop _ _
      have hsame : (removeAll ext.data (basenameChars f.data)).length - j =
          (removeAll ext.data (basenameChars f.data)).length := by
        rw [← hlen, he, heq]
      omega
  · intro he
    refine h1 ⟨?_, ?_⟩
    · rw [← he]
      exact List.drop_suffix j _
    · intro heq
      have hlen : ((removeAll ext.data (basenameChars f.data)).drop j).length =
          (removeAll ext.data (basenameChars f.data)).length - j := List.length_drop _ _
      have hsame : (removeAll ext.data (basenameChars f.data)).length - j =
          (removeAll ext.data (basenameChars f.data)).length := by
        rw [← hlen, he, heq]
      omega

theorem exact_suffix_name_excluded_witness :
    bnameOf ".fastq.gz" "_R1" "_R2" "_R1.fastq.gz" = none :=
  exact_suffix_name_excluded ".fastq.gz" "_R1" "_R2" "_R1.fastq.gz"
    (by decide) (by decide) (by decide)

/-- C10: the suffix removal in `get_sample_names` is a plain substring
replacement, not an end-anchored strip: `removeAll` (the model of Python
`str.replace(suffix, "")` used on each read suffix in turn) deletes an
occurrence of the suffix wherever it sits in the extension-stripped
basename — here its leftmost occurrence, sitting after `u` and before the
arbitrary remainder `v` — so names merely containing a suffix substring
(such as `sample_R10`) are altered even though they do not end in a read
suffix. -/
theorem removeAll_strikes_interior_occurrence (pat u v : List Char) (h1 : pat ≠ [])
    (h2 : ∀ i, i < u.length → ¬ pat <+: List.drop i (u ++ pat ++ v)) :
    removeAll pat (u ++ pat ++ v) = u ++ removeAll pat v := by
  induction u with
  | nil =>
    simp only [List.nil_append]
    exact removeAll_append_self h1 v
  | cons c u2 ih =>
    have h0 : ¬ pat <+: (c :: (u2 ++ pat ++ v)) := by
      have hd := h2 0 (by simp)
      simpa using hd
    have hstep : removeAll pat ((c :: u2) ++ pat ++ v) = c :: removeAll pat (u2 ++ pat ++ v) := by
      have hsh : (c :: u2) ++ pat ++ v = c :: (u2 ++ pat ++ v) := by simp
      rw [hsh]
      exact removeAll_cons_neg (fun hc => h0 hc.2)
    rw [hstep]
    have h2a : ∀ i, i < u2.length → ¬ pat <+: List.drop i (u2 ++ pat ++ v) := by
      intro i hi
      have hh := h2 (i + 1) (by simp only [List.length_cons]; omega)
      have hsh : (c :: u2) ++ pat ++ v = c :: (u2 ++ pat ++ v) := by simp
      rw [hsh, List.drop_succ_cons] at hh
      exact hh
    rw [ih h2a]
    rfl

theorem removeAll_strikes_interior_occurrence_witness :
    removeAll "_R1".data ("sample".data ++ "_R1".data ++ "0".data) =
      "sample".data ++ removeAll "_R1".data "0".data :=
  removeAll_strikes_interior_occurrence "_R1".data "sample".data "0".data
    (by decide) (by decide)

example : removeAll ".gz".data "a.gz.gz".data = "a".data := by decide
example : removeAll "aa".data "aaa".data = "a".data := by decide
example : removeAll "ab".data "aabb".data = "ab".data := by decide
example : removeAll [] "ab".data = "ab".data := by decide
example : basename "dir/sub/a_R1.fastq.gz" = "a_R1.fastq.gz" := by decide
example : bnameOf ".fastq.gz" "_R1" "_R2" "d/a_R1.fastq.gz" = some "a".data := by decide
example : bnameOf ".fastq.gz" "_R1" "_R2" "d/a.fastq.gz" = none := by decide
example : bnameOf "" "_R1" "1" "_R1" = some "_R".data := by decide
example : is_paired ["a_R1.fastq.gz", "a_R2.fastq.gz"] ".fastq.gz" ["_R1", "_R2"] = some true := by decide
example : is_paired ["a.fastq.gz", "b.fastq.gz"] ".fastq.gz" ["_R1", "_R2"] = some false := by decide
example : is_paired ["a.fastq.gz", "b_R1.fastq.gz", "b_R2.fastq.gz"] ".fastq.gz" ["_R1", "_R2"] = some true := by decide
example : is_paired ["b_R1.fastq", "b_R2.fastq", "b_R2.fastq"] ".fastq" ["_R1", "_R2"] = some false := by decide
example : is_paired ["a_R1.fastq"] ".fastq" [] = none := by rfl
example : get_sample_names ["d/a_R1.fastq.gz", "d/a_R2.fastq.gz"] ".fastq.gz" ["_R1", "_R2"] = ["a"] := by decide
example : get_sample_names ["sample_R10.fastq.gz"] ".fastq.gz" ["_R1", "_R2"] = ["sample0"] := by decide
example : get_sample_names ["a.gz.gz"] ".gz" [] = ["a"] := by decide
